import Mathlib

/-
  Verification development for an EdDSA (ed25519-style) signature core.

  The repository source available here is the crate root, which documents the
  public API (Keypair generate / sign / verify, fixed-width to_bytes and
  from_bytes codecs) and re-exports a module named ed25519 that holds the
  implementation.  That module is not part of the provided sources, so the
  algorithmic definitions below are modelled from the written specification
  of the system: byte strings are lists of naturals, the external
  curve-arithmetic capability is an explicit structure of operations, and the
  digest capability is a function parameter.
-/

namespace Ed25519

/-- The order L of the prime subgroup of the ed25519 curve; all scalars are
reduced modulo L. -/
def L : Nat := 2 ^ 252 + 27742317777372353535851937790883648493

/-- Interpret a byte string (little-endian, least significant byte first) as
a natural number. -/
def leNat : List Nat → Nat
  | [] => 0
  | b :: bs => b + 256 * leNat bs

/-- Encode a natural number as a little-endian byte string of the given
length. -/
def natToLe : Nat → Nat → List Nat
  | 0, _ => []
  | len + 1, n => n % 256 :: natToLe len (n / 256)

theorem length_natToLe (len n : Nat) : (natToLe len n).length = len := by
  induction len generalizing n with
  | zero => rfl
  | succ m ih => simp [natToLe, ih]

theorem leNat_natToLe (len n : Nat) (h : n < 256 ^ len) :
    leNat (natToLe len n) = n := by
  induction len generalizing n with
  | zero =>
    simp [natToLe, leNat]
    omega
  | succ m ih =>
    have hdiv : n / 256 < 256 ^ m := by
      rw [Nat.div_lt_iff_lt_mul (by norm_num)]
      calc n < 256 ^ (m + 1) := h
        _ = 256 ^ m * 256 := by ring
    simp only [natToLe, leNat, ih (n / 256) hdiv]
    omega

theorem natToLe_lt (len n : Nat) : ∀ b ∈ natToLe len n, b < 256 := by
  induction len generalizing n with
  | zero => simp [natToLe]
  | succ m ih =>
    intro b hb
    simp only [natToLe, List.mem_cons] at hb
    rcases hb with h | h
    · subst h; exact Nat.mod_lt _ (by norm_num)
    · exact ih _ b h

/-- The external scalar/point arithmetic capability: base point, point
addition, scalar multiplication, point equality, and compress / decompress
between points and 32-byte encodings.  The core never implements field
arithmetic; it only orchestrates these operations. -/
structure Provider (Point : Type) where
  B : Point
  add : Point → Point → Point
  smul : Nat → Point → Point
  eqb : Point → Point → Bool
  compress : Point → List Nat
  decompress : List Nat → Option Point

/-- The contract the audited arithmetic library is trusted to satisfy:
compressed points are 32 bytes, decompression inverts compression, point
equality is decided exactly, and scalar multiplication of the base point is
a homomorphism from naturals modulo L. -/
structure Provider.Spec {Point : Type} (P : Provider Point) : Prop where
  compress_length : ∀ p, (P.compress p).length = 32
  decompress_compress : ∀ p, P.decompress (P.compress p) = some p
  eqb_iff : ∀ x y, P.eqb x y = true ↔ x = y
  smul_mod_B : ∀ n, P.smul (n % L) P.B = P.smul n P.B
  smul_add_B : ∀ m n, P.smul (m + n) P.B = P.add (P.smul m P.B) (P.smul n P.B)
  smul_mul_B : ∀ m n, P.smul m (P.smul n P.B) = P.smul (m * n) P.B

/-- Modelled from the spec: the error taxonomy of the missing ed25519
module (decode length mismatch, invalid point encoding, invalid or
non-canonical signature). -/
inductive SigError where
  | invalidLength
  | invalidPoint
  | invalidSignature
deriving DecidableEq

/-- Modelled from the spec: clamping of the 32-byte scalar pre-image from
the missing ed25519 module.  Clear bits 0 to 2 of byte 0, clear bit 7 of
byte 31, set bit 6 of byte 31. -/
def clamp (b : List Nat) : List Nat :=
  (b.set 0 (b.headD 0 &&& 248)).set 31 ((b.getD 31 0 &&& 127) ||| 64)

/-- Modelled from the spec: the expanded secret key of the missing ed25519
module, holding the clamped 32-byte scalar and the 32-byte nonce half of
the digest of the seed. -/
structure ExpandedSecretKey where
  a : List Nat
  nonce : List Nat
deriving DecidableEq

/-- Modelled from the spec: key derivation from the missing ed25519 module.
Digest the 32 secret bytes into 64 bytes h, clamp the first half into the
scalar, keep the second half as the nonce material. -/
def expandSecretKey (H : List Nat → List Nat) (seed : List Nat) :
    ExpandedSecretKey :=
  { a := clamp ((H seed).take 32), nonce := (H seed).drop 32 }

/-- Modelled from the spec: public-key derivation from the missing ed25519
module: compress the scalar multiple of the base point. -/
def derivePublicBytes {Point : Type} (H : List Nat → List Nat)
    (P : Provider Point) (seed : List Nat) : List Nat :=
  P.compress (P.smul (leNat (expandSecretKey H seed).a) P.B)

/-- Modelled from the spec: the signing algorithm of the missing ed25519
module.  r is the reduced digest of nonce and message, R the compressed
commitment, k the reduced digest of R, public key bytes and message, and
the scalar part is (r + k * a) mod L, stored little-endian in 32 bytes. -/
def sign {Point : Type} (H : List Nat → List Nat) (P : Provider Point)
    (esk : ExpandedSecretKey) (Ab M : List Nat) : List Nat :=
  let r := leNat (H (esk.nonce ++ M)) % L
  let Rb := P.compress (P.smul r P.B)
  let k := leNat (H (Rb ++ Ab ++ M)) % L
  Rb ++ natToLe 32 ((r + k * leNat esk.a) % L)

/-- Modelled from the spec: the verification algorithm of the missing
ed25519 module, with its error outcomes.  Reject a non-canonical scalar
part first, then decompress both points, then check the curve equation. -/
def verifyE {Point : Type} (H : List Nat → List Nat) (P : Provider Point)
    (Ab M sig : List Nat) : Except SigError Unit :=
  let Rb := sig.take 32
  let S := leNat (sig.drop 32)
  if L ≤ S then Except.error SigError.invalidSignature
  else
    match P.decompress Rb, P.decompress Ab with
    | some R, some A =>
      let k := leNat (H (Rb ++ Ab ++ M)) % L
      if P.eqb (P.smul S P.B) (P.add R (P.smul k A)) then Except.ok ()
      else Except.error SigError.invalidSignature
    | _, _ => Except.error SigError.invalidPoint

/-- Modelled from the spec: the boolean verification entry point of the
public API (any failure is reported as false, never as a crash). -/
def verify {Point : Type} (H : List Nat → List Nat) (P : Provider Point)
    (Ab M sig : List Nat) : Bool :=
  match verifyE H P Ab M sig with
  | Except.ok _ => true
  | Except.error _ => false

/-- Length constant for secret keys, from the public API. -/
def SECRET_KEY_LENGTH : Nat := 32

/-- Length constant for public keys, from the public API. -/
def PUBLIC_KEY_LENGTH : Nat := 32

/-- Length constant for signatures, from the public API. -/
def SIGNATURE_LENGTH : Nat := 64

/-- Length constant for keypairs, from the public API. -/
def KEYPAIR_LENGTH : Nat := 64

/-- A secret key is 32 raw seed bytes. -/
structure SecretKey where
  bytes : List Nat
deriving DecidableEq

/-- A public key is the 32-byte compressed form of the public point. -/
structure PublicKey where
  bytes : List Nat
deriving DecidableEq

/-- A signature is 64 bytes: compressed R followed by the scalar S. -/
structure Signature where
  bytes : List Nat
deriving DecidableEq

/-- A keypair aggregates the secret seed and the public key. -/
structure Keypair where
  secret : SecretKey
  public : PublicKey
deriving DecidableEq

/-- to_bytes of a secret key returns its 32 raw bytes. -/
def SecretKey.to_bytes (sk : SecretKey) : List Nat := sk.bytes

/-- Modelled from the spec: secret-key decoding from the missing ed25519
module; the only check is the exact 32-byte length. -/
def SecretKey.from_bytes (b : List Nat) : Except SigError SecretKey :=
  if b.length = SECRET_KEY_LENGTH then Except.ok ⟨b⟩
  else Except.error SigError.invalidLength

/-- to_bytes of a public key returns its compressed 32-byte form. -/
def PublicKey.to_bytes (pk : PublicKey) : List Nat := pk.bytes

/-- Modelled from the spec: public-key decoding from the missing ed25519
module; check the exact 32-byte length first, then that the bytes
decompress to a valid curve point. -/
def PublicKey.from_bytes {Point : Type} (P : Provider Point)
    (b : List Nat) : Except SigError PublicKey :=
  if b.length = PUBLIC_KEY_LENGTH then
    match P.decompress b with
    | some _ => Except.ok ⟨b⟩
    | none => Except.error SigError.invalidPoint
  else Except.error SigError.invalidLength

/-- to_bytes of a signature returns its 64 bytes. -/
def Signature.to_bytes (s : Signature) : List Nat := s.bytes

/-- Modelled from the spec: signature decoding from the missing ed25519
module; the only check is the exact 64-byte length (the scalar range is
required for acceptance, not for storage). -/
def Signature.from_bytes (b : List Nat) : Except SigError Signature :=
  if b.length = SIGNATURE_LENGTH then Except.ok ⟨b⟩
  else Except.error SigError.invalidLength

/-- to_bytes of a keypair is the secret bytes followed by the public
bytes. -/
def Keypair.to_bytes (kp : Keypair) : List Nat :=
  kp.secret.bytes ++ kp.public.bytes

/-- Modelled from the spec: keypair decoding from the missing ed25519
module; check the exact 64-byte length first, then decode the two
halves. -/
def Keypair.from_bytes {Point : Type} (P : Provider Point)
    (b : List Nat) : Except SigError Keypair :=
  if b.length = KEYPAIR_LENGTH then
    match SecretKey.from_bytes (b.take 32), PublicKey.from_bytes P (b.drop 32) with
    | Except.ok sk, Except.ok pk => Except.ok ⟨sk, pk⟩
    | Except.error e, _ => Except.error e
    | _, Except.error e => Except.error e
  else Except.error SigError.invalidLength

/-- Modelled from the spec: keypair generation from the missing ed25519
module.  The random source is a capability answering a request for a
number of fresh bytes with either the bytes or a failure; generation
requests 32 bytes, uses them as the secret key, derives the public key,
and surfaces a random-source failure verbatim. -/
def Keypair.generate {Point E : Type} (H : List Nat → List Nat)
    (P : Provider Point) (rng : Nat → Except E (List Nat)) :
    Except E Keypair :=
  match rng 32 with
  | Except.error e => Except.error e
  | Except.ok seed => Except.ok ⟨⟨seed⟩, ⟨derivePublicBytes H P seed⟩⟩

/-- Signing through a keypair forwards to the signing algorithm using the
expanded secret key and the keypair's own public bytes. -/
def Keypair.sign {Point : Type} (H : List Nat → List Nat)
    (P : Provider Point) (kp : Keypair) (M : List Nat) : List Nat :=
  Ed25519.sign H P (expandSecretKey H kp.secret.bytes) kp.public.bytes M

/-- Verification through a keypair forwards to the verification algorithm
using the keypair's own public bytes. -/
def Keypair.verify {Point : Type} (H : List Nat → List Nat)
    (P : Provider Point) (kp : Keypair) (M sig : List Nat) : Bool :=
  Ed25519.verify H P kp.public.bytes M sig

/-- A concrete arithmetic capability used to exercise the development: the
prime subgroup is represented by residues modulo L, the base point by the
residue one. -/
def modProvider : Provider (Fin L) where
  B := ⟨1, by decide⟩
  add x y := ⟨(x.val + y.val) % L, Nat.mod_lt _ (by decide)⟩
  smul n p := ⟨n * p.val % L, Nat.mod_lt _ (by decide)⟩
  eqb x y := x.val == y.val
  compress p := natToLe 32 p.val
  decompress b :=
    if h : b.length = 32 ∧ leNat b < L then some ⟨leNat b, h.2⟩ else none

theorem L_lt_byte32 : L < 256 ^ 32 := by decide

theorem modProvider_spec : modProvider.Spec := by
  constructor
  · intro p
    exact length_natToLe 32 p.val
  · intro p
    have hlt : p.val < 256 ^ 32 := lt_trans p.isLt L_lt_byte32
    have hle : leNat (natToLe 32 p.val) = p.val := leNat_natToLe 32 p.val hlt
    simp only [modProvider]
    rw [dif_pos ⟨length_natToLe 32 p.val, by rw [hle]; exact p.isLt⟩]
    simp [hle]
  · intro x y
    simp only [modProvider]
    rw [beq_iff_eq]
    exact ⟨fun h => Fin.ext h, fun h => by rw [h]⟩
  · intro n
    simp only [modProvider]
    apply Fin.ext
    simp [Nat.mod_mod_of_dvd]
  · intro m n
    simp only [modProvider]
    apply Fin.ext
    simp [Nat.add_mod]
  · intro m n
    simp only [modProvider]
    apply Fin.ext
    simp only [Nat.mul_one]
    conv_rhs => rw [Nat.mul_mod]
    rw [Nat.mul_mod, Nat.mod_mod_of_dvd _ dvd_rfl]

/-- A concrete 64-byte digest capability used to exercise the
development. -/
def modH (m : List Nat) : List Nat :=
  (List.range 64).map fun i => (i + m.length + m.sum) % 256

theorem modH_length (m : List Nat) : (modH m).length = 64 := by
  simp [modH]

theorem take_append_of_length {α : Type} {l₁ l₂ : List α} {n : Nat}
    (h : l₁.length = n) : (l₁ ++ l₂).take n = l₁ := by
  subst h
  exact List.take_left l₁ l₂

theorem drop_append_of_length {α : Type} {l₁ l₂ : List α} {n : Nat}
    (h : l₁.length = n) : (l₁ ++ l₂).drop n = l₂ := by
  subst h
  exact List.drop_left l₁ l₂

theorem L_pos : 0 < L := by decide

theorem verify_eq_true_iff_ok {Point : Type} (H : List Nat → List Nat)
    (P : Provider Point) (Ab M sig : List Nat) :
    verify H P Ab M sig = true ↔ verifyE H P Ab M sig = Except.ok () := by
  unfold verify
  rcases h : verifyE H P Ab M sig with e | u
  · simp
  · cases u
    simp

theorem verifyE_ok_iff {Point : Type} (H : List Nat → List Nat)
    (P : Provider Point) (hP : P.Spec) (Ab M sig : List Nat) :
    verifyE H P Ab M sig = Except.ok () ↔
      leNat (sig.drop 32) < L ∧
      ∃ R A, P.decompress (sig.take 32) = some R ∧ P.decompress Ab = some A ∧
        P.smul (leNat (sig.drop 32)) P.B =
          P.add R (P.smul (leNat (H (sig.take 32 ++ Ab ++ M)) % L) A) := by
  simp only [verifyE]
  by_cases hge : L ≤ leNat (sig.drop 32)
  · rw [if_pos hge]
    simp
    omega
  · rw [if_neg hge]
    have hlt : leNat (sig.drop 32) < L := Nat.lt_of_not_le hge
    rcases hR : P.decompress (sig.take 32) with _ | R
    · simp [hR]
    · rcases hA : P.decompress Ab with _ | A
      · simp [hR, hA]
      · simp only [hR, hA]
        by_cases heq : P.smul (leNat (sig.drop 32)) P.B =
            P.add R (P.smul (leNat (H (sig.take 32 ++ Ab ++ M)) % L) A)
        · rw [if_pos ((hP.eqb_iff _ _).mpr heq)]
          simp [hlt, heq]
        · rw [if_neg (fun habs => heq ((hP.eqb_iff _ _).mp habs))]
          simp only [List.append_assoc] at heq
          simp [heq]

/-- C1: for every keypair satisfying the keypair invariant (its public
bytes are derived from its secret seed), which holds for every keypair
produced by generation or by decoding a well-formed encoding, and for
every message, verifying the keypair's own signature on that message with
the keypair's public key succeeds. -/
theorem sign_then_verify {Point : Type} (H : List Nat → List Nat)
    (P : Provider Point) (hP : P.Spec) (kp : Keypair) (M : List Nat)
    (hinv : kp.public.bytes = derivePublicBytes H P kp.secret.bytes) :
    Keypair.verify H P kp M (Keypair.sign H P kp M) = true := by
  rcases kp with ⟨⟨seed⟩, ⟨pub⟩⟩
  simp only at hinv
  subst hinv
  unfold Keypair.verify Keypair.sign
  simp only
  rw [verify_eq_true_iff_ok, verifyE_ok_iff H P hP]
  have ha : leNat (Ed25519.sign H P (expandSecretKey H seed)
      (derivePublicBytes H P seed) M)
      = leNat (Ed25519.sign H P (expandSecretKey H seed)
      (derivePublicBytes H P seed) M) := rfl
  set esk := expandSecretKey H seed with hesk
  set aa := leNat esk.a with haa
  set r := leNat (H (esk.nonce ++ M)) % L with hr
  set Ab := P.compress (P.smul aa P.B) with hAb
  set Rb := P.compress (P.smul r P.B) with hRb
  set k := leNat (H (Rb ++ Ab ++ M)) % L with hk
  set S := (r + k * aa) % L with hS
  have hsign : Ed25519.sign H P esk (derivePublicBytes H P seed) M
      = Rb ++ natToLe 32 S := rfl
  have hderive : derivePublicBytes H P seed = Ab := rfl
  rw [hsign, hderive]
  have hRlen : Rb.length = 32 := hP.compress_length _
  have hSlt : S < L := Nat.mod_lt _ L_pos
  have htake : (Rb ++ natToLe 32 S).take 32 = Rb := take_append_of_length hRlen
  have hdrop : (Rb ++ natToLe 32 S).drop 32 = natToLe 32 S :=
    drop_append_of_length hRlen
  have hle : leNat (natToLe 32 S) = S :=
    leNat_natToLe 32 S (lt_trans hSlt L_lt_byte32)
  rw [htake, hdrop, hle]
  refine ⟨hSlt, P.smul r P.B, P.smul aa P.B,
    hP.decompress_compress _, hP.decompress_compress _, ?_⟩
  calc P.smul S P.B
      = P.smul (r + k * aa) P.B := hP.smul_mod_B _
    _ = P.add (P.smul r P.B) (P.smul (k * aa) P.B) := hP.smul_add_B _ _
    _ = P.add (P.smul r P.B) (P.smul k (P.smul aa P.B)) := by
        rw [hP.smul_mul_B]

/-- C1 witness: a concrete keypair over the concrete capabilities signs a
concrete message and the signature verifies. -/
theorem sign_then_verify_witness :
    Keypair.verify modH modProvider
      ⟨⟨List.replicate 32 7⟩, ⟨derivePublicBytes modH modProvider (List.replicate 32 7)⟩⟩
      [1, 2, 3]
      (Keypair.sign modH modProvider
        ⟨⟨List.replicate 32 7⟩, ⟨derivePublicBytes modH modProvider (List.replicate 32 7)⟩⟩
        [1, 2, 3]) = true :=
  sign_then_verify modH modProvider modProvider_spec
    ⟨⟨List.replicate 32 7⟩, ⟨derivePublicBytes modH modProvider (List.replicate 32 7)⟩⟩
    [1, 2, 3] rfl

/-- C2: verification succeeds exactly when the scalar part is canonical
(below L), both the commitment bytes and the public-key bytes decompress
to curve points, and the curve equation S * B = R + k * A holds with k the
reduced digest of commitment bytes, key bytes and message; every other
outcome is reported as false, never as a crash, since verify is a total
function into Bool. -/
theorem verify_true_iff {Point : Type} (H : List Nat → List Nat)
    (P : Provider Point) (hP : P.Spec) (Ab M sig : List Nat) :
    verify H P Ab M sig = true ↔
      leNat (sig.drop 32) < L ∧
      ∃ R A, P.decompress (sig.take 32) = some R ∧ P.decompress Ab = some A ∧
        P.smul (leNat (sig.drop 32)) P.B =
          P.add R (P.smul (leNat (H (sig.take 32 ++ Ab ++ M)) % L) A) := by
  rw [verify_eq_true_iff_ok]
  exact verifyE_ok_iff H P hP Ab M sig

/-- C2 witness: the characterisation instantiated at concrete inputs. -/
theorem verify_true_iff_witness :
    verify modH modProvider (natToLe 32 0) [] (List.replicate 64 0) = true ↔
      leNat ((List.replicate 64 0).drop 32) < L ∧
      ∃ R A, modProvider.decompress ((List.replicate 64 0).take 32) = some R ∧
        modProvider.decompress (natToLe 32 0) = some A ∧
        modProvider.smul (leNat ((List.replicate 64 0).drop 32)) modProvider.B =
          modProvider.add R (modProvider.smul
            (leNat (modH ((List.replicate 64 0).take 32 ++ natToLe 32 0 ++ [])) % L) A) :=
  verify_true_iff modH modProvider modProvider_spec (natToLe 32 0) [] (List.replicate 64 0)

/-- C3: the signature is the compressed commitment R followed by the
32-byte little-endian encoding of S = (r + k * a) mod L with r the reduced
digest of nonce and message and k the reduced digest of R, key bytes and
message; the output is 64 bytes and its scalar part, read back as a
little-endian integer, is below L. -/
theorem sign_spec {Point : Type} (H : List Nat → List Nat)
    (P : Provider Point) (hP : P.Spec) (esk : ExpandedSecretKey)
    (Ab M : List Nat) :
    sign H P esk Ab M =
      P.compress (P.smul (leNat (H (esk.nonce ++ M)) % L) P.B) ++
        natToLe 32 ((leNat (H (esk.nonce ++ M)) % L +
          (leNat (H (P.compress (P.smul (leNat (H (esk.nonce ++ M)) % L) P.B)
            ++ Ab ++ M)) % L) * leNat esk.a) % L) ∧
    (sign H P esk Ab M).length = 64 ∧
    leNat ((sign H P esk Ab M).drop 32) < L := by
  refine ⟨rfl, ?_, ?_⟩
  · show (P.compress (P.smul (leNat (H (esk.nonce ++ M)) % L) P.B) ++
      natToLe 32 ((leNat (H (esk.nonce ++ M)) % L +
        (leNat (H (P.compress (P.smul (leNat (H (esk.nonce ++ M)) % L) P.B)
          ++ Ab ++ M)) % L) * leNat esk.a) % L)).length = 64
    rw [List.length_append, hP.compress_length, length_natToLe]
  · show leNat ((P.compress (P.smul (leNat (H (esk.nonce ++ M)) % L) P.B) ++
      natToLe 32 ((leNat (H (esk.nonce ++ M)) % L +
        (leNat (H (P.compress (P.smul (leNat (H (esk.nonce ++ M)) % L) P.B)
          ++ Ab ++ M)) % L) * leNat esk.a) % L)).drop 32) < L
    rw [drop_append_of_length (hP.compress_length _),
      leNat_natToLe 32 _ (lt_trans (Nat.mod_lt _ L_pos) L_lt_byte32)]
    exact Nat.mod_lt _ L_pos

/-- C3 witness: the shape, length and scalar range of a concrete
signature. -/
theorem sign_spec_witness :
    (sign modH modProvider (expandSecretKey modH (List.replicate 32 7))
      (natToLe 32 0) [1]).length = 64 ∧
    leNat ((sign modH modProvider (expandSecretKey modH (List.replicate 32 7))
      (natToLe 32 0) [1]).drop 32) < L :=
  (sign_spec modH modProvider modProvider_spec
    (expandSecretKey modH (List.replicate 32 7)) (natToLe 32 0) [1]).2

/-- C4: signing is deterministic: the signature is a function of the
clamped scalar, the nonce material, the public-key bytes and the message
alone; the signing algorithm takes no random source, so two invocations on
equal inputs yield byte-identical output. -/
theorem sign_deterministic {Point : Type} (H : List Nat → List Nat)
    (P : Provider Point) (esk₁ esk₂ : ExpandedSecretKey)
    (Ab₁ Ab₂ M₁ M₂ : List Nat)
    (ha : esk₁.a = esk₂.a) (hn : esk₁.nonce = esk₂.nonce)
    (hA : Ab₁ = Ab₂) (hM : M₁ = M₂) :
    sign H P esk₁ Ab₁ M₁ = sign H P esk₂ Ab₂ M₂ := by
  cases esk₁
  cases esk₂
  simp only at ha hn
  subst ha
  subst hn
  subst hA
  subst hM
  rfl

/-- C4 witness: two invocations of signing on the same concrete inputs
agree. -/
theorem sign_deterministic_witness :
    sign modH modProvider ⟨natToLe 32 5, natToLe 32 6⟩ (natToLe 32 0) [1] =
      sign modH modProvider ⟨natToLe 32 5, natToLe 32 6⟩ (natToLe 32 0) [1] :=
  sign_deterministic modH modProvider ⟨natToLe 32 5, natToLe 32 6⟩
    ⟨natToLe 32 5, natToLe 32 6⟩ (natToLe 32 0) (natToLe 32 0) [1] [1]
    rfl rfl rfl rfl

theorem two_L_lt_byte32 : L + L < 256 ^ 32 := by decide

/-- C5: first, any signature whose scalar part reads back at or above L is
rejected with the invalid-signature error for every public key and message
whatsoever, even ones whose points would not decompress, which shows the
scalar-range check precedes both point decompression and the curve
equation; second, replacing the scalar part S of any verifying 64-byte
signature by S + L yields a signature that is rejected for the same key
and message. -/
theorem verify_rejects_noncanonical_S :
    (∀ (Point : Type) (H : List Nat → List Nat) (P : Provider Point)
      (Ab M sig : List Nat), L ≤ leNat (sig.drop 32) →
        verifyE H P Ab M sig = Except.error SigError.invalidSignature) ∧
    (∀ (Point : Type) (H : List Nat → List Nat) (P : Provider Point)
      (Ab M sig : List Nat), sig.length = 64 →
      verify H P Ab M sig = true →
        verifyE H P Ab M (sig.take 32 ++ natToLe 32 (leNat (sig.drop 32) + L))
          = Except.error SigError.invalidSignature) := by
  have part1 : ∀ (Point : Type) (H : List Nat → List Nat) (P : Provider Point)
      (Ab M sig : List Nat), L ≤ leNat (sig.drop 32) →
        verifyE H P Ab M sig = Except.error SigError.invalidSignature := by
    intro Point H P Ab M sig hge
    simp only [verifyE]
    rw [if_pos hge]
  refine ⟨part1, ?_⟩
  intro Point H P Ab M sig hlen hok
  have hSlt : leNat (sig.drop 32) < L := by
    by_contra hge
    have h1 := part1 Point H P Ab M sig (Nat.le_of_not_lt hge)
    rw [verify_eq_true_iff_ok, h1] at hok
    exact absurd hok (by simp)
  have htakelen : (sig.take 32).length = 32 := by
    rw [List.length_take, hlen]
    decide
  have hdrop : (sig.take 32 ++ natToLe 32 (leNat (sig.drop 32) + L)).drop 32
      = natToLe 32 (leNat (sig.drop 32) + L) := drop_append_of_length htakelen
  apply part1
  rw [hdrop, leNat_natToLe 32 _ (by have h2 := two_L_lt_byte32; omega)]
  exact Nat.le_add_left _ _

/-- C5 witness: a concrete signature with scalar part exactly L is
rejected as invalid, and adding L to the scalar part of a concrete
verifying signature makes it rejected as invalid. -/
theorem verify_rejects_noncanonical_S_witness :
    verifyE modH modProvider [] [] (natToLe 32 0 ++ natToLe 32 L)
      = Except.error SigError.invalidSignature ∧
    verifyE modH modProvider (derivePublicBytes modH modProvider (List.replicate 32 7))
      [1, 2, 3]
      ((sign modH modProvider (expandSecretKey modH (List.replicate 32 7))
          (derivePublicBytes modH modProvider (List.replicate 32 7)) [1, 2, 3]).take 32 ++
        natToLe 32 (leNat ((sign modH modProvider
          (expandSecretKey modH (List.replicate 32 7))
          (derivePublicBytes modH modProvider (List.replicate 32 7)) [1, 2, 3]).drop 32) + L))
      = Except.error SigError.invalidSignature :=
  ⟨verify_rejects_noncanonical_S.1 (Fin L) modH modProvider [] []
      (natToLe 32 0 ++ natToLe 32 L) (by decide),
    verify_rejects_noncanonical_S.2 (Fin L) modH modProvider
      (derivePublicBytes modH modProvider (List.replicate 32 7)) [1, 2, 3]
      (sign modH modProvider (expandSecretKey modH (List.replicate 32 7))
        (derivePublicBytes modH modProvider (List.replicate 32 7)) [1, 2, 3])
      (by decide) (by decide)⟩

/-- C6: decoding the encoding of a valid value returns that value for all
four value types, with the fixed widths 32, 32, 64 and 64 bytes and the
keypair encoded as secret bytes followed by public bytes; validity means
the stored bytes have the fixed width and public-key bytes decompress. -/
theorem codec_roundtrip {Point : Type} (P : Provider Point)
    (sk : SecretKey) (pk : PublicKey) (s : Signature) (kp : Keypair)
    (hsk : sk.bytes.length = 32)
    (hpk : pk.bytes.length = 32)
    (A : Point) (hpkv : P.decompress pk.bytes = some A)
    (hs : s.bytes.length = 64)
    (hkps : kp.secret.bytes.length = 32)
    (hkpp : kp.public.bytes.length = 32)
    (A₂ : Point) (hkpv : P.decompress kp.public.bytes = some A₂) :
    SecretKey.from_bytes (SecretKey.to_bytes sk) = Except.ok sk ∧
    PublicKey.from_bytes P (PublicKey.to_bytes pk) = Except.ok pk ∧
    Signature.from_bytes (Signature.to_bytes s) = Except.ok s ∧
    Keypair.from_bytes P (Keypair.to_bytes kp) = Except.ok kp := by
  rcases sk with ⟨skb⟩
  rcases pk with ⟨pkb⟩
  rcases s with ⟨sb⟩
  rcases kp with ⟨⟨ksb⟩, ⟨kpb⟩⟩
  simp only at hsk hpk hpkv hs hkps hkpp hkpv
  refine ⟨?_, ?_, ?_, ?_⟩
  · simp [SecretKey.from_bytes, SecretKey.to_bytes, SECRET_KEY_LENGTH, hsk]
  · simp only [PublicKey.from_bytes, PublicKey.to_bytes, PUBLIC_KEY_LENGTH]
    rw [if_pos hpk, hpkv]
  · simp [Signature.from_bytes, Signature.to_bytes, SIGNATURE_LENGTH, hs]
  · simp only [Keypair.from_bytes, Keypair.to_bytes, KEYPAIR_LENGTH]
    rw [if_pos (by rw [List.length_append, hkps, hkpp])]
    rw [take_append_of_length hkps, drop_append_of_length hkps]
    simp only [SecretKey.from_bytes, PublicKey.from_bytes,
      SECRET_KEY_LENGTH, PUBLIC_KEY_LENGTH]
    rw [if_pos hkps, if_pos hkpp, hkpv]

/-- C6 witness: the four round trips at concrete valid values. -/
theorem codec_roundtrip_witness :
    SecretKey.from_bytes (SecretKey.to_bytes ⟨List.replicate 32 9⟩)
      = Except.ok ⟨List.replicate 32 9⟩ ∧
    PublicKey.from_bytes modProvider (PublicKey.to_bytes ⟨natToLe 32 0⟩)
      = Except.ok ⟨natToLe 32 0⟩ ∧
    Signature.from_bytes (Signature.to_bytes ⟨List.replicate 64 9⟩)
      = Except.ok ⟨List.replicate 64 9⟩ ∧
    Keypair.from_bytes modProvider
      (Keypair.to_bytes ⟨⟨List.replicate 32 9⟩, ⟨natToLe 32 0⟩⟩)
      = Except.ok ⟨⟨List.replicate 32 9⟩, ⟨natToLe 32 0⟩⟩ :=
  codec_roundtrip modProvider ⟨List.replicate 32 9⟩ ⟨natToLe 32 0⟩
    ⟨List.replicate 64 9⟩ ⟨⟨List.replicate 32 9⟩, ⟨natToLe 32 0⟩⟩
    (by decide) (by decide) ⟨0, L_pos⟩ (by decide) (by decide)
    (by decide) (by decide) ⟨0, L_pos⟩ (by decide)

/-- C7: for each of the four value types, decoding a byte string whose
length differs from the exact expected width fails with the
invalid-length error; the length check precedes any interpretation of the
bytes, since the result is the invalid-length error for arbitrary byte
contents and an arbitrary arithmetic capability. -/
theorem from_bytes_wrong_length :
    ∀ (Point : Type) (P : Provider Point) (b : List Nat),
      (b.length ≠ 32 →
        SecretKey.from_bytes b = Except.error SigError.invalidLength) ∧
      (b.length ≠ 32 →
        PublicKey.from_bytes P b = Except.error SigError.invalidLength) ∧
      (b.length ≠ 64 →
        Signature.from_bytes b = Except.error SigError.invalidLength) ∧
      (b.length ≠ 64 →
        Keypair.from_bytes P b = Except.error SigError.invalidLength) := by
  intro Point P b
  refine ⟨fun h => ?_, fun h => ?_, fun h => ?_, fun h => ?_⟩
  · simp only [SecretKey.from_bytes, SECRET_KEY_LENGTH]
    rw [if_neg h]
  · simp only [PublicKey.from_bytes, PUBLIC_KEY_LENGTH]
    rw [if_neg h]
  · simp only [Signature.from_bytes, SIGNATURE_LENGTH]
    rw [if_neg h]
  · simp only [Keypair.from_bytes, KEYPAIR_LENGTH]
    rw [if_neg h]

/-- C7 witness: the invalid-length failures at concrete lengths 0,
expected minus one and expected plus one for each of the four types. -/
theorem from_bytes_wrong_length_witness :
    SecretKey.from_bytes [] = Except.error SigError.invalidLength ∧
    SecretKey.from_bytes (List.replicate 31 0) = Except.error SigError.invalidLength ∧
    SecretKey.from_bytes (List.replicate 33 0) = Except.error SigError.invalidLength ∧
    PublicKey.from_bytes modProvider [] = Except.error SigError.invalidLength ∧
    PublicKey.from_bytes modProvider (List.replicate 31 0)
      = Except.error SigError.invalidLength ∧
    PublicKey.from_bytes modProvider (List.replicate 33 0)
      = Except.error SigError.invalidLength ∧
    Signature.from_bytes [] = Except.error SigError.invalidLength ∧
    Signature.from_bytes (List.replicate 63 0) = Except.error SigError.invalidLength ∧
    Signature.from_bytes (List.replicate 65 0) = Except.error SigError.invalidLength ∧
    Keypair.from_bytes modProvider [] = Except.error SigError.invalidLength ∧
    Keypair.from_bytes modProvider (List.replicate 63 0)
      = Except.error SigError.invalidLength ∧
    Keypair.from_bytes modProvider (List.replicate 65 0)
      = Except.error SigError.invalidLength :=
  ⟨(from_bytes_wrong_length (Fin L) modProvider []).1 (by decide),
    (from_bytes_wrong_length (Fin L) modProvider (List.replicate 31 0)).1 (by decide),
    (from_bytes_wrong_length (Fin L) modProvider (List.replicate 33 0)).1 (by decide),
    (from_bytes_wrong_length (Fin L) modProvider []).2.1 (by decide),
    (from_bytes_wrong_length (Fin L) modProvider (List.replicate 31 0)).2.1 (by decide),
    (from_bytes_wrong_length (Fin L) modProvider (List.replicate 33 0)).2.1 (by decide),
    (from_bytes_wrong_length (Fin L) modProvider []).2.2.1 (by decide),
    (from_bytes_wrong_length (Fin L) modProvider (List.replicate 63 0)).2.2.1 (by decide),
    (from_bytes_wrong_length (Fin L) modProvider (List.replicate 65 0)).2.2.1 (by decide),
    (from_bytes_wrong_length (Fin L) modProvider []).2.2.2 (by decide),
    (from_bytes_wrong_length (Fin L) modProvider (List.replicate 63 0)).2.2.2 (by decide),
    (from_bytes_wrong_length (Fin L) modProvider (List.replicate 65 0)).2.2.2 (by decide)⟩

theorem clamp_length (b : List Nat) : (clamp b).length = b.length := by
  simp [clamp]

theorem clamp_getD_zero (b : List Nat) (h : 0 < b.length) :
    (clamp b).getD 0 0 = b.headD 0 &&& 248 := by
  unfold clamp
  rw [List.getD_eq_getElem _ _ (by simpa using h)]
  rw [List.getElem_set_ne (by omega)]
  rw [List.getElem_set_self (by simpa using h)]

theorem clamp_getD_31 (b : List Nat) (h : 31 < b.length) :
    (clamp b).getD 31 0 = (b.getD 31 0 &&& 127) ||| 64 := by
  unfold clamp
  rw [List.getD_eq_getElem _ _ (by simpa using h)]
  rw [List.getElem_set_self (by simpa using h)]

/-- C8: every expanded secret key derived from a seed has a clamped
scalar: its byte string is 32 bytes long, bits 0 to 2 of byte 0 are
clear, bit 7 of byte 31 is clear and bit 6 of byte 31 is set; the
derivation below is the only constructor of expanded secret keys from
seeds. -/
theorem expanded_key_clamped (H : List Nat → List Nat) (seed : List Nat)
    (hH : (H seed).length = 64) :
    (expandSecretKey H seed).a.length = 32 ∧
    Nat.testBit ((expandSecretKey H seed).a.getD 0 0) 0 = false ∧
    Nat.testBit ((expandSecretKey H seed).a.getD 0 0) 1 = false ∧
    Nat.testBit ((expandSecretKey H seed).a.getD 0 0) 2 = false ∧
    Nat.testBit ((expandSecretKey H seed).a.getD 31 0) 7 = false ∧
    Nat.testBit ((expandSecretKey H seed).a.getD 31 0) 6 = true := by
  have hb : ((H seed).take 32).length = 32 := by
    rw [List.length_take, hH]
    decide
  have ha : (expandSecretKey H seed).a = clamp ((H seed).take 32) := rfl
  rw [ha, clamp_getD_zero _ (by omega), clamp_getD_31 _ (by omega)]
  refine ⟨by rw [clamp_length, hb], ?_, ?_, ?_, ?_, ?_⟩
  · rw [Nat.testBit_land]
    simp [show Nat.testBit 248 0 = false by decide]
  · rw [Nat.testBit_land]
    simp [show Nat.testBit 248 1 = false by decide]
  · rw [Nat.testBit_land]
    simp [show Nat.testBit 248 2 = false by decide]
  · rw [Nat.testBit_lor, Nat.testBit_land]
    simp [show Nat.testBit 127 7 = false by decide,
      show Nat.testBit 64 7 = false by decide]
  · rw [Nat.testBit_lor]
    simp [show Nat.testBit 64 6 = true by decide]

/-- C8 witness: the clamping facts at a concrete seed and digest. -/
theorem expanded_key_clamped_witness :
    (expandSecretKey modH (List.replicate 32 3)).a.length = 32 ∧
    Nat.testBit ((expandSecretKey modH (List.replicate 32 3)).a.getD 0 0) 0 = false ∧
    Nat.testBit ((expandSecretKey modH (List.replicate 32 3)).a.getD 0 0) 1 = false ∧
    Nat.testBit ((expandSecretKey modH (List.replicate 32 3)).a.getD 0 0) 2 = false ∧
    Nat.testBit ((expandSecretKey modH (List.replicate 32 3)).a.getD 31 0) 7 = false ∧
    Nat.testBit ((expandSecretKey modH (List.replicate 32 3)).a.getD 31 0) 6 = true :=
  expanded_key_clamped modH (List.replicate 32 3) (modH_length _)

/-- C9: keypair generation is the image of one request of 32 bytes from
the random source: on success the drawn bytes become the secret key and
everything else is derived deterministically from them, and on failure
the error of the random source is returned unchanged, for every error
type; in particular generation consults the source exactly once and never
retries. -/
theorem generate_spec : ∀ (Point E : Type) (H : List Nat → List Nat)
    (P : Provider Point) (rng : Nat → Except E (List Nat)),
    Keypair.generate H P rng
      = (rng 32).map fun seed => ⟨⟨seed⟩, ⟨derivePublicBytes H P seed⟩⟩ := by
  intro Point E H P rng
  unfold Keypair.generate
  rcases h : rng 32 with e | seed
  · rfl
  · rfl

end Ed25519
